import Mathlib

/-!
Verification of the hybrid-retrieval / rerank / intent-routing / memory core
of the `rag-mobile` repository, as a shallow embedding in Lean.

* `src/retrival/re_rank.py` — `HybridSearch.__init__`, `HybridSearch.query`
  (weighted score fusion over BM25 and vector results), `rerank_chunk_level`
  (per-product max aggregation), `ReRank.query`, and the disk-cache checks.
* `src/retrival/llm_router.py` — `Router.classify`, `Router._parse_and_validate`
  and the three pydantic output schemas.
* `src/generation/llm_stm.py` — `ChatWithMemory.call_model` history compaction.

External library behaviour (the BM25 retriever, the Chroma vector store, the
cross-encoder model, the LLM, the regex engine and the JSON extraction
heuristics) is modelled as oracle parameters; everything the repository's own
code computes from the oracles' answers is translated literally.
-/

namespace RagMobile

/-- A langchain `Document` as used by `re_rank.py`: the passage text plus the
`metadata.get("product_id")` field (`none` when the metadata lacks the key). -/
structure Doc where
  page_content : String
  product_id : Option String
deriving DecidableEq, Repr

/-- Key type of the per-product dictionaries: `doc.metadata.get("product_id")`. -/
abbrev PId := Option String

/-! ## Per-product dictionaries

Both `HybridSearch.query` (lines 62–73: `score_dict` / `doc_dict`) and
`rerank_chunk_level` (lines 97–103: `product_scores` / `product_docs`) keep a
pair of Python dicts keyed by `product_id`, always updated in lockstep, so both
dicts always have exactly the same keys.  We model each pair as a single
insertion-ordered association list of `Entry` (CPython dicts iterate in
insertion order; updating an existing key keeps its position, a new key is
appended at the end). -/

structure Entry where
  pid : PId
  score : ℚ
  doc : Doc
deriving DecidableEq, Repr

/-- Dictionary lookup: the `(score_dict[pid], doc_dict[pid])` pair, or `none`
when `pid` is not a key. -/
def lookupEntry : List Entry → PId → Option (ℚ × Doc)
  | [], _ => none
  | e :: rest, p => if e.pid = p then some (e.score, e.doc) else lookupEntry rest p

/-- The last document of a list whose `product_id` equals `p` (used to state
which representative passage the fusion keeps). -/
def lastMatch : List Doc → PId → Option Doc
  | [], _ => none
  | d :: rest, p => (lastMatch rest p).or (if d.product_id = p then some d else none)

/-- Number of passages of a list carrying a given `product_id`. -/
def pidCount (docs : List Doc) (p : PId) : ℕ :=
  (docs.filter (fun d => d.product_id = p)).length

/-! ## Stable descending sort

Both stages sort dictionary items with
`sorted(dict.items(), key=lambda x: x[1], reverse=True)`: CPython's stable
sort, descending by score, ties keeping insertion order.  `insertDesc` places
an element before the first position whose score is `≤` its own, which yields
exactly that stable descending order. -/

def insertDesc (e : Entry) : List Entry → List Entry
  | [] => [e]
  | x :: xs => if x.score ≤ e.score then e :: x :: xs else x :: insertDesc e xs

def sortDesc : List Entry → List Entry
  | [] => []
  | x :: xs => insertDesc x (sortDesc xs)

/-! ## Fusion Engine — `HybridSearch.query`, `src/retrival/re_rank.py` lines 62–77

    for doc in bm25_docs:
        pid = doc.metadata.get("product_id")
        score_dict[pid] = score_dict.get(pid, 0) + self.bm25_weight
        doc_dict[pid] = doc
    for doc in vector_docs:
        pid = doc.metadata.get("product_id")
        score_dict[pid] = score_dict.get(pid, 0) + (1 - self.bm25_weight)
        doc_dict[pid] = doc
    sorted_pids = sorted(score_dict.items(), key=lambda x: x[1], reverse=True)
    result = [doc_dict[pid] for pid, _ in sorted_pids[:self.k]]
-/

/-- One fusion loop body: add `weight` to the pid's fused score and overwrite
the representative doc (`doc_dict[pid] = doc` is an unconditional overwrite). -/
def fuseUpdate (weight : ℚ) : List Entry → Doc → List Entry
  | [], d => [⟨d.product_id, weight, d⟩]
  | e :: rest, d =>
    if e.pid = d.product_id then ⟨e.pid, e.score + weight, d⟩ :: rest
    else e :: fuseUpdate weight rest d

/-- The two fusion loops: BM25 docs first with weight `bm25_weight`, then
vector docs with weight `1 - bm25_weight`. -/
def fuseAll (bm25_weight : ℚ) (bm25_docs vector_docs : List Doc) : List Entry :=
  vector_docs.foldl (fuseUpdate (1 - bm25_weight)) (bm25_docs.foldl (fuseUpdate bm25_weight) [])

/-- `HybridSearch.query` fusion result (lines 62–77), given the two source
result lists returned by the BM25 retriever and the vector retriever. -/
def hybridFusion (bm25_weight : ℚ) (k : ℕ) (bm25_docs vector_docs : List Doc) : List Doc :=
  ((sortDesc (fuseAll bm25_weight bm25_docs vector_docs)).take k).map Entry.doc

/-! ## Cross-encoder reranker — `rerank_chunk_level`, lines 85–107 -/

/-- One aggregation loop body (lines 100–103):

    if pid not in product_scores or score > product_scores[pid]:
        product_scores[pid] = score
        product_docs[pid] = doc
-/
def aggUpdate : List Entry → Doc → ℚ → List Entry
  | [], d, s => [⟨d.product_id, s, d⟩]
  | e :: rest, d, s =>
    if e.pid = d.product_id then
      if e.score < s then ⟨e.pid, s, d⟩ :: rest else e :: rest
    else e :: aggUpdate rest d s

/-- `rerank_chunk_level(query, docs, topk)`.  The cross-encoder model is the
oracle `modelScore`: the score the model assigns to the pair
`[query, doc.page_content]` (one batched inference, one score per pair, in
order — `zip(docs, scores.tolist())`).  An empty candidate list returns `[]`
before the model is consulted (lines 86–87), which is why the result does not
depend on `modelScore` there. -/
def rerank_chunk_level (modelScore : String → String → ℚ) (query : String)
    (docs : List Doc) (topk : ℕ) : List Doc :=
  if docs.isEmpty then []
  else
    let agg := docs.foldl (fun acc d => aggUpdate acc d (modelScore query d.page_content)) []
    ((sortDesc agg).take topk).map Entry.doc

/-! ## Disk cache checks — `HybridSearch.query` lines 51–54 and `ReRank.query`
lines 117–120

    cached = cache.get(cache_key)
    if cached:
        return cached

`cache.get` returns `None` on a miss; `if cached:` additionally treats a
cached empty list as false (Python truthiness), falling through to the
recomputation. -/

/-- `HybridSearch.query` with the cache check in front of the fusion:
`cached` is what `cache.get(cache_key)` returned. -/
def hybridQueryCached (cached : Option (List Doc)) (bm25_weight : ℚ) (k : ℕ)
    (bm25_docs vector_docs : List Doc) : List Doc :=
  match cached with
  | some v => if v.isEmpty then hybridFusion bm25_weight k bm25_docs vector_docs else v
  | none => hybridFusion bm25_weight k bm25_docs vector_docs

/-- `ReRank.query` with the cache check in front of the rerank: `hybridDocs`
is what `self.hybrid_search.query(query)` returned. -/
def rerankQueryCached (cached : Option (List Doc)) (modelScore : String → String → ℚ)
    (query : String) (hybridDocs : List Doc) (topk : ℕ) : List Doc :=
  match cached with
  | some v => if v.isEmpty then rerank_chunk_level modelScore query hybridDocs topk else v
  | none => rerank_chunk_level modelScore query hybridDocs topk

/-! ## `HybridSearch.__init__` — lines 34–48

    if not documents:
        documents = [Document(page_content="Welcome to shop!", metadata={"product_id": "default"})]
    self.bm25 = BM25Retriever.from_documents(documents)
    ...
    self.vector_store = Chroma(persist_directory=vector_path, collection_name=collection_name)

The BM25 index is built from `documents` (with the sentinel substituted when
the corpus is empty); the Chroma vector store is merely opened from its
persist directory — `__init__` adds no documents to it. -/

/-- The sentinel passage substituted for an empty corpus (line 39). -/
def welcomeDoc : Doc := ⟨"Welcome to shop!", some "default"⟩

/-- What `HybridSearch.__init__` feeds to each index: `bm25_documents` is the
list passed to `BM25Retriever.from_documents`; `vector_seed_documents` is the
list of documents `__init__` adds to the Chroma vector store. -/
structure HybridSearchInit where
  k : ℕ
  bm25_weight : ℚ
  bm25_documents : List Doc
  vector_seed_documents : List Doc
deriving DecidableEq, Repr

def hybridSearchInit (topk : ℕ) (documents : List Doc) (bm25_weight : ℚ) : HybridSearchInit :=
  let documents := if documents.isEmpty then [welcomeDoc] else documents
  { k := topk, bm25_weight := bm25_weight,
    bm25_documents := documents, vector_seed_documents := [] }

/-! ## Intent router — `src/retrival/llm_router.py`

The LLM, the fast-path regex engine (`re` matching of `CHAT_PATTERNS`) and the
JSON extraction/repair heuristics (`extract_json_like` + `strict_json_load`,
lines 94–143, pure `re`/`json` library work) are oracles; the pydantic schema
validation (lines 42–87), the schema cascade of `_parse_and_validate`
(lines 169–201) and the retry/fallback control flow of `classify`
(lines 203–234) are translated literally.

A parsed JSON object is modelled as an association list of fields whose values
range over the shapes the router schemas can consume: JSON `null`, strings,
and lists of strings. -/

/-- Python `str.strip()` with no argument: remove leading and trailing
whitespace.  (Defined by structural recursion over the character list so that
concrete instances evaluate inside the kernel.) -/
def dropWhileWS : List Char → List Char
  | [] => []
  | c :: cs => if c.isWhitespace then dropWhileWS cs else c :: cs

def pyStrip (s : String) : String :=
  ⟨(dropWhileWS (dropWhileWS s.data).reverse).reverse⟩

/-- A JSON value as seen by the pydantic schemas. -/
inductive PyVal where
  | null
  | str (s : String)
  | strList (l : List String)
deriving DecidableEq, Repr

/-- A JSON object / the dict a schema's `.dict()` produces. -/
abbrev RouterDict := List (String × PyVal)

/-- Field access as pydantic's `str`-typed field validation does it: the field
must be present and hold a string (a `null` or list value fails the field). -/
def getStr (o : RouterDict) (key : String) : Option String :=
  match o.lookup key with
  | some (PyVal.str s) => some s
  | _ => none

/-- Field access for a `List[str]`-typed pydantic field. -/
def getStrList (o : RouterDict) (key : String) : Option (List String) :=
  match o.lookup key with
  | some (PyVal.strList l) => some l
  | _ => none

/-- `ChatOutput.parse_obj(...).dict()` (lines 42–49).  The validator
`router_must_be_chat` raises unless the value is `"chat"`, but it is missing
the `return v` its two sibling schemas have — a pydantic-v1 validator that
returns nothing replaces the field value with `None`, so a successful parse
stores `None` in the `router` field and `.dict()` maps `"router"` to `None`. -/
def chatOutputParse (o : RouterDict) : Option RouterDict :=
  match getStr o "router", getStr o "infor" with
  | some r, some i =>
    if r = "chat" then some [("router", PyVal.null), ("infor", PyVal.str i)]
    else none
  | _, _ => none

/-- `RetrievalOutput.parse_obj(...).dict()` (lines 51–65): `router` must be
`"retrieval"`, `infor` must be non-empty and not whitespace-only (`if not v or
not v.strip()`); both validators return the value unchanged. -/
def retrievalOutputParse (o : RouterDict) : Option RouterDict :=
  match getStr o "router", getStr o "infor" with
  | some r, some i =>
    if r = "retrieval" then
      if i = "" ∨ pyStrip i = "" then none
      else some [("router", PyVal.str "retrieval"), ("infor", PyVal.str i)]
    else none
  | _, _ => none

/-- `ComparisonOutput.parse_obj(...).dict()` (lines 68–85): `router` must be
`"comparison"`; `products` fails when `not v or len(v) < 2`; then
`cleaned = [p.strip() for p in v if p and p.strip()]` keeps the trimmed
non-blank entries, fails when fewer than 2 survive, and becomes the stored
field value. -/
def comparisonOutputParse (o : RouterDict) : Option RouterDict :=
  match getStr o "router", getStrList o "products" with
  | some r, some ps =>
    if r = "comparison" then
      if ps.isEmpty ∨ ps.length < 2 then none
      else
        let cleaned := (ps.filter (fun p => p ≠ "" ∧ pyStrip p ≠ "")).map pyStrip
        if cleaned.length < 2 then none
        else some [("router", PyVal.str "comparison"), ("products", PyVal.strList cleaned)]
    else none
  | _, _ => none

/-- The schema cascade of `_parse_and_validate` (lines 192–199): try
`OUTPUT_SCHEMAS = (ChatOutput, RetrievalOutput, ComparisonOutput)` in order,
first schema that validates wins; `none` when none matches. -/
def validateSchemas (o : RouterDict) : Option RouterDict :=
  match chatOutputParse o with
  | some d => some d
  | none =>
    match retrievalOutputParse o with
    | some d => some d
    | none => comparisonOutputParse o

/-- `Router._parse_and_validate(raw)` (lines 169–201).  `jsonOf` is the oracle
for `extract_json_like` + `strict_json_load` (including the whole-output
last-resort parse): `none` when extraction or JSON loading raises, otherwise
the loaded object.  An empty or whitespace-only raw answer fails up front
(`if not raw or not raw.strip()`). -/
def parseAndValidate (jsonOf : String → Option RouterDict) (raw : String) :
    Option RouterDict :=
  if pyStrip raw = "" then none
  else
    match jsonOf raw with
    | none => none
    | some o => validateSchemas o

/-- The fallback decision of `classify` (line 234):
`{"router": "retrieval", "infor": user_input.strip()}`. -/
def fallbackDecision (user_input : String) : RouterDict :=
  [("router", PyVal.str "retrieval"), ("infor", PyVal.str (pyStrip user_input))]

/-- `Router._rule_based_fastpath` (lines 156–161).  `matcher` is the oracle
for `any(p.search(user_input) for p in CHAT_PATTERNS)`; on a match the method
returns `{"router": "chat", "infor": user_input.strip()}`. -/
def ruleBasedFastpath (matcher : String → Bool) (user_input : String) :
    Option RouterDict :=
  if matcher user_input then
    some [("router", PyVal.str "chat"), ("infor", PyVal.str (pyStrip user_input))]
  else none

/-- The retry loop of `classify` (lines 217–230):
`for attempt in range(1, self.max_retries + 2)`.  `llm attempt` is the raw
string the LLM returns on that attempt (the escalated strict system prompt
only changes what the oracle sees, not the loop itself).  `if parsed:` is a
Python truthiness test on the returned dict, hence the `isEmpty` guard.
`fuel` counts the remaining attempts; the loop falls through to the fallback
decision (lines 232–234). -/
def classifyLoop (jsonOf : String → Option RouterDict) (llm : ℕ → String)
    (user_input : String) : ℕ → ℕ → RouterDict
  | 0, _ => fallbackDecision user_input
  | fuel + 1, attempt =>
    match parseAndValidate jsonOf (llm attempt) with
    | some parsed =>
      if parsed.isEmpty then classifyLoop jsonOf llm user_input fuel (attempt + 1)
      else parsed
    | none => classifyLoop jsonOf llm user_input fuel (attempt + 1)

/-- `Router.classify(user_input)` (lines 203–234): rule-based fast path, then
`1 + max_retries` model attempts, then the retrieval fallback.  Total by
construction: it always returns a decision dict and never raises. -/
def classify (matcher : String → Bool) (jsonOf : String → Option RouterDict)
    (llm : ℕ → String) (max_retries : ℕ) (user_input : String) : RouterDict :=
  match ruleBasedFastpath matcher user_input with
  | some rule => rule
  | none => classifyLoop jsonOf llm user_input (max_retries + 1) 1

/-! ## Conversation memory — `ChatWithMemory.call_model`, `src/generation/llm_stm.py`
lines 58–75

The langgraph `MessagesState` reducer (`add_messages`) applies the returned
update list to the stored history: a message whose id is already present
replaces it in place, a new id is appended, and a `RemoveMessage(id=...)`
deletes the message with that id.  The LLM is the oracle `invoke`; fresh
message ids (`HumanMessage(...)` and the model's replies get new ids) are
parameters constrained in the theorems. -/

/-- A stored chat message: langchain message id plus content. -/
structure Message where
  id : ℕ
  content : String
deriving DecidableEq, Repr

/-- One element of the update list a langgraph node returns. -/
inductive MsgUpdate where
  | add (m : Message)
  | remove (id : ℕ)
deriving DecidableEq, Repr

/-- `add_messages` handling of one appended message: replace in place on an
id match, else append. -/
def addMessage (msgs : List Message) (m : Message) : List Message :=
  if msgs.any (fun x => x.id = m.id) then
    msgs.map (fun x => if x.id = m.id then m else x)
  else msgs ++ [m]

/-- `add_messages` handling of one `RemoveMessage`. -/
def removeMessage (msgs : List Message) (i : ℕ) : List Message :=
  msgs.filter (fun x => x.id ≠ i)

/-- The `add_messages` reducer over a whole update list, in order. -/
def applyUpdates (msgs : List Message) (ups : List MsgUpdate) : List Message :=
  ups.foldl
    (fun acc u =>
      match u with
      | MsgUpdate.add m => addMessage acc m
      | MsgUpdate.remove i => removeMessage acc i)
    msgs

/-- `_build_system_message` (lines 43–48); only ever handed to the model,
never stored, so its id is irrelevant (0 here). -/
def systemMessage : Message :=
  ⟨0, "Bạn là một nhân viên tư vấn điện thoại nhiệt tình" ++
      "Hãy trả lời người dùng một cách lịch sự, tên bạn là Lisa, luôn trả lời là Lisa thay vì tôi"⟩

/-- The summarization prompt of `_summarize_messages` (lines 52–55); also only
handed to the model. -/
def summaryPromptMessage : Message :=
  ⟨0, "Distill the above chat messages into a single summary message. " ++
      "Include as many specific details as you can."⟩

/-- `_summarize_messages(message_history)` (lines 50–56). -/
def summarizeMessages (invoke : List Message → Message) (history : List Message) : Message :=
  invoke (history ++ [summaryPromptMessage])

/-- `ChatWithMemory.call_model(state)` (lines 58–75).  `msgs` is
`state["messages"]` (the stored history with the in-flight user message merged
at the end); `invoke` is the model oracle; `freshHumanId` is the id the new
`HumanMessage(content=last_user_message.content)` receives.  Returns the
update list handed to the reducer.  When the compaction branch is taken,
`message_history.length ≥ threshold ≥ 1` forces `msgs` to be non-empty, so
`state["messages"][-1]` is total there (`getLastD` with a junk default is only
ever read on a non-empty list). -/
def call_model (invoke : List Message → Message) (freshHumanId : ℕ)
    (summary_threshold : ℕ) (msgs : List Message) : List MsgUpdate :=
  let message_history := msgs.dropLast
  if summary_threshold ≤ message_history.length then
    let last_user_message := msgs.getLastD ⟨0, ""⟩
    let summary_message := summarizeMessages invoke message_history
    let delete_ops := msgs.map (fun m => MsgUpdate.remove m.id)
    let human_message : Message := ⟨freshHumanId, last_user_message.content⟩
    let response := invoke [systemMessage, summary_message, human_message]
    [MsgUpdate.add summary_message, MsgUpdate.add human_message, MsgUpdate.add response]
      ++ delete_ops
  else
    [MsgUpdate.add (invoke (systemMessage :: msgs))]

/-! ## Sort lemmas -/

theorem perm_insertDesc (e : Entry) (l : List Entry) :
    List.Perm (insertDesc e l) (e :: l) := by
  induction l with
  | nil => simp [insertDesc]
  | cons x xs ih =>
    unfold insertDesc
    by_cases h : x.score ≤ e.score
    · simp [h]
    · simp only [if_neg h]
      exact (ih.cons x).trans (List.Perm.swap e x xs)

theorem perm_sortDesc (l : List Entry) : List.Perm (sortDesc l) l := by
  induction l with
  | nil => simp [sortDesc]
  | cons x xs ih => exact (perm_insertDesc x (sortDesc xs)).trans (ih.cons x)

theorem mem_insertDesc {y e : Entry} {l : List Entry} :
    y ∈ insertDesc e l ↔ y = e ∨ y ∈ l := by
  rw [(perm_insertDesc e l).mem_iff, List.mem_cons]

theorem sorted_insertDesc {e : Entry} {l : List Entry}
    (h : List.Pairwise (fun a b => b.score ≤ a.score) l) :
    List.Pairwise (fun a b => b.score ≤ a.score) (insertDesc e l) := by
  induction l with
  | nil => simp [insertDesc]
  | cons x xs ih =>
    rw [List.pairwise_cons] at h
    obtain ⟨hx, hxs⟩ := h
    unfold insertDesc
    by_cases hc : x.score ≤ e.score
    · rw [if_pos hc, List.pairwise_cons]
      refine ⟨?_, List.pairwise_cons.mpr ⟨hx, hxs⟩⟩
      intro y hy
      rcases List.mem_cons.mp hy with rfl | hy'
      · exact hc
      · exact le_trans (hx y hy') hc
    · rw [if_neg hc, List.pairwise_cons]
      refine ⟨?_, ih hxs⟩
      intro y hy
      rcases mem_insertDesc.mp hy with rfl | hy'
      · exact le_of_lt (lt_of_not_le hc)
      · exact hx y hy'

theorem sorted_sortDesc (l : List Entry) :
    List.Pairwise (fun a b => b.score ≤ a.score) (sortDesc l) := by
  induction l with
  | nil => simp [sortDesc]
  | cons x xs ih => exact sorted_insertDesc ih

/-! ## Fusion lookup lemmas -/

theorem lookupEntry_fuseUpdate (w : ℚ) (l : List Entry) (d : Doc) (p : PId) :
    lookupEntry (fuseUpdate w l d) p =
      if d.product_id = p then
        some ((lookupEntry l p).elim w (fun q => q.1 + w), d)
      else lookupEntry l p := by
  induction l with
  | nil =>
    by_cases h : d.product_id = p <;> simp [fuseUpdate, lookupEntry, h]
  | cons e rest ih =>
    unfold fuseUpdate
    by_cases h1 : e.pid = d.product_id
    · rw [if_pos h1]
      by_cases h2 : e.pid = p
      · have hdp : d.product_id = p := h1 ▸ h2
        simp [lookupEntry, h2, hdp]
      · have hdp : ¬ d.product_id = p := fun h => h2 (h1.trans h)
        simp [lookupEntry, h2, hdp]
    · rw [if_neg h1]
      by_cases h2 : e.pid = p
      · have hdp : ¬ d.product_id = p := fun h => h1 (h2.trans h.symm)
        simp [lookupEntry, h2, hdp]
      · simp [lookupEntry, h2, ih]

theorem pidCount_cons (d : Doc) (rest : List Doc) (p : PId) :
    pidCount (d :: rest) p =
      (if d.product_id = p then 1 else 0) + pidCount rest p := by
  unfold pidCount
  rw [List.filter_cons]
  by_cases h : d.product_id = p <;> simp [h, Nat.add_comm]

theorem lastMatch_eq_none {docs : List Doc} {p : PId} :
    lastMatch docs p = none ↔ pidCount docs p = 0 := by
  induction docs with
  | nil => simp [lastMatch, pidCount]
  | cons d rest ih =>
    rw [pidCount_cons]
    cases hrest : lastMatch rest p with
    | some d2 =>
      have h1 : lastMatch (d :: rest) p = some d2 := by
        unfold lastMatch; rw [hrest]; rfl
      have h2 : pidCount rest p ≠ 0 := fun hc => by
        rw [ih.mpr hc] at hrest; exact Option.noConfusion hrest
      rw [h1]
      by_cases h : d.product_id = p <;> simp [h, h2]
    | none =>
      have hcnt : pidCount rest p = 0 := ih.mp hrest
      unfold lastMatch
      rw [hrest, hcnt]
      by_cases h : d.product_id = p <;> simp [h]

theorem lastMatch_append (l1 l2 : List Doc) (p : PId) :
    lastMatch (l1 ++ l2) p = (lastMatch l2 p).or (lastMatch l1 p) := by
  induction l1 with
  | nil => simp [lastMatch]
  | cons d rest ih =>
    show (lastMatch (rest ++ l2) p).or _ = (lastMatch l2 p).or ((lastMatch rest p).or _)
    rw [ih, Option.or_assoc]

theorem pidCount_append (l1 l2 : List Doc) (p : PId) :
    pidCount (l1 ++ l2) p = pidCount l1 p + pidCount l2 p := by
  unfold pidCount
  rw [List.filter_append, List.length_append]

/-- Effect of the two fusion loops on the dictionaries, at each pid: the fused
score accumulates `weight` once per matching source passage, and the
representative doc is the last matching passage processed. -/
theorem lookupEntry_foldl_fuse (w : ℚ) (docs : List Doc) (acc : List Entry) (p : PId) :
    lookupEntry (docs.foldl (fuseUpdate w) acc) p =
      match lastMatch docs p with
      | none => lookupEntry acc p
      | some d =>
          some ((lookupEntry acc p).elim 0 Prod.fst + (pidCount docs p : ℚ) * w, d) := by
  induction docs generalizing acc with
  | nil => simp [lastMatch]
  | cons d1 rest ih =>
    rw [List.foldl_cons, ih, lookupEntry_fuseUpdate, pidCount_cons]
    cases hrest : lastMatch rest p with
    | some d2 =>
      have h1 : lastMatch (d1 :: rest) p = some d2 := by
        unfold lastMatch; rw [hrest]; rfl
      rw [h1]
      by_cases h : d1.product_id = p
      · rw [if_pos h]
        cases hacc : lookupEntry acc p <;> simp [h, hacc] <;> ring
      · rw [if_neg h]
        simp [h]
    | none =>
      have hcnt : pidCount rest p = 0 := lastMatch_eq_none.mp hrest
      unfold lastMatch
      rw [hrest, hcnt]
      by_cases h : d1.product_id = p
      · rw [if_pos h]
        simp only [h, if_pos, Option.none_or]
        cases hacc : lookupEntry acc p <;> simp [hacc]
      · rw [if_neg h]
        simp [h, hrest]

/-- `score_dict` / `doc_dict` after both fusion loops, at each pid: the score
is `pidCount(bm25) · w + pidCount(vector) · (1 − w)` and the doc is the last
matching passage of `bm25_docs ++ vector_docs`. -/
theorem lookupEntry_fuseAll (w : ℚ) (bm vec : List Doc) (p : PId) :
    lookupEntry (fuseAll w bm vec) p =
      match lastMatch (bm ++ vec) p with
      | none => none
      | some d =>
          some ((pidCount bm p : ℚ) * w + (pidCount vec p : ℚ) * (1 - w), d) := by
  unfold fuseAll
  rw [lookupEntry_foldl_fuse, lookupEntry_foldl_fuse, lastMatch_append]
  cases hvec : lastMatch vec p with
  | some d =>
    cases hbm : lastMatch bm p with
    | none =>
      have : pidCount bm p = 0 := lastMatch_eq_none.mp hbm
      simp [lookupEntry, this]
    | some d1 => simp [lookupEntry]
  | none =>
    have hc : pidCount vec p = 0 := lastMatch_eq_none.mp hvec
    cases hbm : lastMatch bm p with
    | none => simp [lookupEntry]
    | some d1 => simp [lookupEntry, hc]

/-! ## Dictionary invariants

Every member of one of the dictionaries is either an untouched previous member
or carries the pid of the doc just processed; keys stay pairwise distinct, and
every entry's stored doc carries the entry's own pid. -/

theorem mem_fuseUpdate {w : ℚ} {l : List Entry} {d : Doc} {y : Entry}
    (hy : y ∈ fuseUpdate w l d) : y ∈ l ∨ y.pid = d.product_id := by
  induction l with
  | nil =>
    simp [fuseUpdate] at hy
    right; rw [hy]
  | cons e rest ih =>
    unfold fuseUpdate at hy
    by_cases h : e.pid = d.product_id
    · rw [if_pos h] at hy
      rcases List.mem_cons.mp hy with rfl | hy'
      · right; exact h
      · left; exact List.mem_cons_of_mem _ hy'
    · rw [if_neg h] at hy
      rcases List.mem_cons.mp hy with rfl | hy'
      · left; exact List.mem_cons_self _ _
      · rcases ih hy' with h1 | h1
        · left; exact List.mem_cons_of_mem _ h1
        · right; exact h1

theorem mem_aggUpdate {l : List Entry} {d : Doc} {s : ℚ} {y : Entry}
    (hy : y ∈ aggUpdate l d s) : y ∈ l ∨ y.pid = d.product_id := by
  induction l with
  | nil =>
    simp [aggUpdate] at hy
    right; rw [hy]
  | cons e rest ih =>
    unfold aggUpdate at hy
    by_cases h : e.pid = d.product_id
    · rw [if_pos h] at hy
      by_cases hs : e.score < s
      · rw [if_pos hs] at hy
        rcases List.mem_cons.mp hy with rfl | hy'
        · right; exact h
        · left; exact List.mem_cons_of_mem _ hy'
      · rw [if_neg hs] at hy
        left; exact hy
    · rw [if_neg h] at hy
      rcases List.mem_cons.mp hy with rfl | hy'
      · left; exact List.mem_cons_self _ _
      · rcases ih hy' with h1 | h1
        · left; exact List.mem_cons_of_mem _ h1
        · right; exact h1

theorem pairwise_fuseUpdate {w : ℚ} {l : List Entry} {d : Doc}
    (h : List.Pairwise (fun a b => a.pid ≠ b.pid) l) :
    List.Pairwise (fun a b => a.pid ≠ b.pid) (fuseUpdate w l d) := by
  induction l with
  | nil => simp [fuseUpdate]
  | cons e rest ih =>
    rw [List.pairwise_cons] at h
    obtain ⟨he, hrest⟩ := h
    unfold fuseUpdate
    by_cases hc : e.pid = d.product_id
    · rw [if_pos hc, List.pairwise_cons]
      exact ⟨he, hrest⟩
    · rw [if_neg hc, List.pairwise_cons]
      refine ⟨?_, ih hrest⟩
      intro y hy
      rcases mem_fuseUpdate hy with h1 | h1
      · exact he y h1
      · rw [h1]; exact hc


theorem pairwise_aggUpdate {l : List Entry} {d : Doc} {s : ℚ}
    (h : List.Pairwise (fun a b => a.pid ≠ b.pid) l) :
    List.Pairwise (fun a b => a.pid ≠ b.pid) (aggUpdate l d s) := by
  induction l with
  | nil => simp [aggUpdate]
  | cons e rest ih =>
    rw [List.pairwise_cons] at h
    obtain ⟨he, hrest⟩ := h
    unfold aggUpdate
    by_cases hc : e.pid = d.product_id
    · rw [if_pos hc]
      by_cases hs : e.score < s
      · rw [if_pos hs, List.pairwise_cons]
        exact ⟨fun y hy => hc ▸ he y hy, hrest⟩
      · rw [if_neg hs, List.pairwise_cons]
        exact ⟨he, hrest⟩
    · rw [if_neg hc, List.pairwise_cons]
      refine ⟨?_, ih hrest⟩
      intro y hy
      rcases mem_aggUpdate hy with h1 | h1
      · exact he y h1
      · rw [h1]; exact hc

theorem docpid_fuseUpdate {w : ℚ} {l : List Entry} {d : Doc}
    (h : ∀ e ∈ l, e.doc.product_id = e.pid) :
    ∀ e ∈ fuseUpdate w l d, e.doc.product_id = e.pid := by
  induction l with
  | nil =>
    intro e he
    simp [fuseUpdate] at he
    rw [he]
  | cons e0 rest ih =>
    intro e he
    unfold fuseUpdate at he
    by_cases hc : e0.pid = d.product_id
    · rw [if_pos hc] at he
      rcases List.mem_cons.mp he with rfl | he'
      · exact hc.symm
      · exact h e (List.mem_cons_of_mem _ he')
    · rw [if_neg hc] at he
      rcases List.mem_cons.mp he with rfl | he'
      · exact h e (List.mem_cons_self _ _)
      · exact ih (fun x hx => h x (List.mem_cons_of_mem _ hx)) e he'

theorem docpid_aggUpdate {l : List Entry} {d : Doc} {s : ℚ}
    (h : ∀ e ∈ l, e.doc.product_id = e.pid) :
    ∀ e ∈ aggUpdate l d s, e.doc.product_id = e.pid := by
  induction l with
  | nil =>
    intro e he
    simp [aggUpdate] at he
    rw [he]
  | cons e0 rest ih =>
    intro e he
    unfold aggUpdate at he
    by_cases hc : e0.pid = d.product_id
    · rw [if_pos hc] at he
      by_cases hs : e0.score < s
      · rw [if_pos hs] at he
        rcases List.mem_cons.mp he with rfl | he'
        · exact hc.symm
        · exact h e (List.mem_cons_of_mem _ he')
      · rw [if_neg hs] at he
        exact h e he
    · rw [if_neg hc] at he
      rcases List.mem_cons.mp he with rfl | he'
      · exact h e (List.mem_cons_self _ _)
      · exact ih (fun x hx => h x (List.mem_cons_of_mem _ hx)) e he'

/-- Both invariants, for the whole fusion fold. -/
theorem invariants_foldl_fuse (w : ℚ) (docs : List Doc) (acc : List Entry)
    (hpw : List.Pairwise (fun a b => a.pid ≠ b.pid) acc)
    (hdp : ∀ e ∈ acc, e.doc.product_id = e.pid) :
    List.Pairwise (fun a b => a.pid ≠ b.pid) (docs.foldl (fuseUpdate w) acc) ∧
      ∀ e ∈ docs.foldl (fuseUpdate w) acc, e.doc.product_id = e.pid := by
  induction docs generalizing acc with
  | nil => exact ⟨hpw, hdp⟩
  | cons d rest ih =>
    rw [List.foldl_cons]
    exact ih _ (pairwise_fuseUpdate hpw) (docpid_fuseUpdate hdp)

theorem invariants_fuseAll (w : ℚ) (bm vec : List Doc) :
    List.Pairwise (fun a b => a.pid ≠ b.pid) (fuseAll w bm vec) ∧
      ∀ e ∈ fuseAll w bm vec, e.doc.product_id = e.pid := by
  unfold fuseAll
  obtain ⟨h1, h2⟩ := invariants_foldl_fuse w bm [] (by simp) (by simp)
  exact invariants_foldl_fuse (1 - w) vec _ h1 h2

/-- First-match lookup agrees with membership when keys are pairwise distinct. -/
theorem lookupEntry_of_mem {l : List Entry} {e : Entry}
    (hpw : List.Pairwise (fun a b => a.pid ≠ b.pid) l) (he : e ∈ l) :
    lookupEntry l e.pid = some (e.score, e.doc) := by
  induction l with
  | nil => cases he
  | cons e0 rest ih =>
    rw [List.pairwise_cons] at hpw
    obtain ⟨h0, hrest⟩ := hpw
    rcases List.mem_cons.mp he with rfl | he'
    · simp [lookupEntry]
    · have : e0.pid ≠ e.pid := h0 e he'
      unfold lookupEntry
      rw [if_neg this]
      exact ih hrest he'

/-- C2: For every query (i.e. any pair of source result lists) and every topK,
the fused result list of `HybridSearch.query` has length at most topK and
contains no two entries with the same `product_id`. -/
theorem hybridFusion_length_le_and_nodup_pid (w : ℚ) (k : ℕ) (bm vec : List Doc) :
    (hybridFusion w k bm vec).length ≤ k ∧
      List.Pairwise (fun d1 d2 : Doc => d1.product_id ≠ d2.product_id)
        (hybridFusion w k bm vec) := by
  obtain ⟨hpw, hdp⟩ := invariants_fuseAll w bm vec
  have hperm := perm_sortDesc (fuseAll w bm vec)
  constructor
  · unfold hybridFusion
    rw [List.length_map, List.length_take]
    exact min_le_left _ _
  · unfold hybridFusion
    apply List.pairwise_map.mpr
    have hpw2 : List.Pairwise (fun a b : Entry => a.pid ≠ b.pid)
        (sortDesc (fuseAll w bm vec)) :=
      (List.Perm.pairwise_iff (fun hab => Ne.symm hab) hperm).mpr hpw
    have hpw3 := hpw2.sublist (List.take_sublist k _)
    refine List.Pairwise.imp_of_mem ?_ hpw3
    intro a b ha hb hne
    have ha' : a ∈ fuseAll w bm vec :=
      hperm.mem_iff.mp ((List.take_sublist k _).subset ha)
    have hb' : b ∈ fuseAll w bm vec :=
      hperm.mem_iff.mp ((List.take_sublist k _).subset hb)
    rw [hdp a ha', hdp b hb']
    exact hne

/-- General fused-score law: at any pid present in at least one source, the
fused score is `pidCount(bm25)·w + pidCount(vector)·(1−w)` — each source
passage contributes its source's weight once. -/
theorem fuseAll_score (w : ℚ) (bm vec : List Doc) (p : PId) (c1 c2 : ℕ)
    (hc1 : pidCount bm p = c1) (hc2 : pidCount vec p = c2) (hpos : 0 < c1 + c2) :
    (lookupEntry (fuseAll w bm vec) p).map Prod.fst =
      some ((c1 : ℚ) * w + (c2 : ℚ) * (1 - w)) := by
  rw [lookupEntry_fuseAll]
  cases hlm : lastMatch (bm ++ vec) p with
  | none =>
    exfalso
    have h0 := lastMatch_eq_none.mp hlm
    rw [pidCount_append, hc1, hc2] at h0
    omega
  | some d => rw [hc1, hc2]; rfl

/-- C3: a product appearing exactly once in each source list receives the sum
of both source weights, `bm25_weight + (1 − bm25_weight) = 1`; a product
absent from the lexical list and appearing exactly once in the vector list
scores exactly `1 − bm25_weight`. -/
theorem fusion_weight_accumulation (w : ℚ) (bm vec : List Doc) (p : PId) :
    (pidCount bm p = 1 → pidCount vec p = 1 →
      (lookupEntry (fuseAll w bm vec) p).map Prod.fst = some (w + (1 - w)) ∧
        w + (1 - w) = 1) ∧
    (pidCount bm p = 0 → pidCount vec p = 1 →
      (lookupEntry (fuseAll w bm vec) p).map Prod.fst = some (1 - w)) := by
  constructor
  · intro h1 h2
    refine ⟨?_, by ring⟩
    have h := fuseAll_score w bm vec p 1 1 h1 h2 (by norm_num)
    simpa using h
  · intro h1 h2
    have h := fuseAll_score w bm vec p 0 1 h1 h2 (by norm_num)
    simpa using h

/-- Witness for C3 at a concrete input: product `"p"` appears once in each
source, product `"q"` only in the vector source. -/
theorem fusion_weight_accumulation_witness :
    ((lookupEntry (fuseAll (1/2) [⟨"a", some "p"⟩] [⟨"b", some "p"⟩, ⟨"c", some "q"⟩])
        (some "p")).map Prod.fst = some ((1:ℚ)/2 + (1 - 1/2)) ∧
      (1:ℚ)/2 + (1 - 1/2) = 1) ∧
    (lookupEntry (fuseAll (1/2) [⟨"a", some "p"⟩] [⟨"b", some "p"⟩, ⟨"c", some "q"⟩])
        (some "q")).map Prod.fst = some (1 - (1:ℚ)/2) :=
  ⟨(fusion_weight_accumulation (1/2) _ _ _).1 (by decide) (by decide),
   (fusion_weight_accumulation (1/2) _ _ _).2 (by decide) (by decide)⟩

/-- C7 counterexample: a product whose passages appear in both sources keeps
the vector passage (the last observed), not the first passage observed.  Here
the lexical source returns the passage `"lex passage"` first, yet the fused
entry carries `"vec passage"`. -/
theorem hybridFusion_rep_not_first_observed :
    hybridFusion (1/2) 5 [⟨"lex passage", some "p1"⟩] [⟨"vec passage", some "p1"⟩]
      = [⟨"vec passage", some "p1"⟩] ∧
    (⟨"vec passage", some "p1"⟩ : Doc) ≠ ⟨"lex passage", some "p1"⟩ := by
  decide

/-- C7 amended: each fused entry carries the **last** passage observed for its
product, with sources processed lexical first and then vector
(`doc_dict[pid] = doc` overwrites unconditionally). -/
theorem hybridFusion_rep_last_observed (w : ℚ) (k : ℕ) (bm vec : List Doc) :
    ∀ d ∈ hybridFusion w k bm vec, lastMatch (bm ++ vec) d.product_id = some d := by
  intro d hd
  unfold hybridFusion at hd
  obtain ⟨e, he, rfl⟩ := List.mem_map.mp hd
  have he' : e ∈ fuseAll w bm vec :=
    (perm_sortDesc _).mem_iff.mp ((List.take_sublist k _).subset he)
  obtain ⟨hpw, hdp⟩ := invariants_fuseAll w bm vec
  have hl := lookupEntry_of_mem hpw he'
  rw [lookupEntry_fuseAll] at hl
  rw [hdp e he']
  cases hlm : lastMatch (bm ++ vec) e.pid with
  | none => rw [hlm] at hl; exact absurd hl (by simp)
  | some d2 =>
    rw [hlm] at hl
    have hpair := Option.some.inj hl
    exact congrArg (fun q => some q.2) hpair

/-- Witness for the amended C7 at a concrete input. -/
theorem hybridFusion_rep_last_observed_witness :
    lastMatch ([⟨"lex passage", some "p1"⟩] ++ [⟨"vec passage", some "p1"⟩]) (some "p1")
      = some ⟨"vec passage", some "p1"⟩ :=
  hybridFusion_rep_last_observed (1/2) 5 [⟨"lex passage", some "p1"⟩]
    [⟨"vec passage", some "p1"⟩] ⟨"vec passage", some "p1"⟩ (by decide)

/-- C9 counterexample: constructing `HybridSearch` over an empty corpus seeds
only the BM25 index with the sentinel; `__init__` adds no document — in
particular not the welcome passage — to the Chroma vector store. -/
theorem emptyCorpus_vector_not_seeded :
    welcomeDoc ∉ (hybridSearchInit 10 [] (1/2)).vector_seed_documents ∧
      (hybridSearchInit 10 [] (1/2)).bm25_documents = [welcomeDoc] := by
  decide

/-- C9 amended: on an empty corpus, `HybridSearch.__init__` substitutes the
single sentinel welcome passage for the document list, so the lexical (BM25)
index is seeded with it (and `BM25Retriever.from_documents` is never called on
an empty list); the vector store is opened from its persist directory with no
documents added. -/
theorem emptyCorpus_seeds_bm25_only (k : ℕ) (w : ℚ) :
    (hybridSearchInit k [] w).bm25_documents = [welcomeDoc] ∧
      (hybridSearchInit k [] w).bm25_documents ≠ [] ∧
      (hybridSearchInit k [] w).vector_seed_documents = [] :=
  ⟨rfl, by simp [hybridSearchInit], rfl⟩

/-- C10: both cache reads test Python truthiness (`if cached:`), so a cached
empty list is treated as a miss and recomputed, while a non-empty cached value
is served as-is; a plain miss (`None`) also recomputes. -/
theorem cache_hit_by_truthiness (w : ℚ) (k topk : ℕ) (bm vec hybridDocs : List Doc)
    (ms : String → String → ℚ) (q : String) :
    (hybridQueryCached (some []) w k bm vec = hybridFusion w k bm vec) ∧
    (rerankQueryCached (some []) ms q hybridDocs topk
        = rerank_chunk_level ms q hybridDocs topk) ∧
    (∀ v : List Doc, v ≠ [] → hybridQueryCached (some v) w k bm vec = v) ∧
    (∀ v : List Doc, v ≠ [] → rerankQueryCached (some v) ms q hybridDocs topk = v) ∧
    (hybridQueryCached none w k bm vec = hybridFusion w k bm vec) ∧
    (rerankQueryCached none ms q hybridDocs topk = rerank_chunk_level ms q hybridDocs topk) := by
  refine ⟨rfl, rfl, ?_, ?_, rfl, rfl⟩
  · intro v hv
    cases v with
    | nil => exact absurd rfl hv
    | cons a l => rfl
  · intro v hv
    cases v with
    | nil => exact absurd rfl hv
    | cons a l => rfl

/-- Witness for C10 at concrete inputs: a cached empty list is recomputed, a
cached non-empty list is served. -/
theorem cache_hit_by_truthiness_witness :
    (hybridQueryCached (some []) (1/2) 3 [] [⟨"v", some "p"⟩]
        = hybridFusion (1/2) 3 [] [⟨"v", some "p"⟩]) ∧
    hybridQueryCached (some [⟨"c", some "x"⟩]) (1/2) 3 [] [⟨"v", some "p"⟩]
        = [⟨"c", some "x"⟩] :=
  ⟨(cache_hit_by_truthiness (1/2) 3 3 [] [⟨"v", some "p"⟩] [] (fun _ _ => 0) "q").1,
   (cache_hit_by_truthiness (1/2) 3 3 [] [⟨"v", some "p"⟩] [] (fun _ _ => 0) "q").2.2.1
     [⟨"c", some "x"⟩] (by decide)⟩


/-! ## Reranker aggregation lemmas -/

/-- One step of the per-pid view of the aggregation loop: how the pair
`(product_scores[p], product_docs[p])` evolves when `d` is processed with
model score `f d`. -/
def runStep (f : Doc → ℚ) (p : PId) (cur : Option (ℚ × Doc)) (d : Doc) :
    Option (ℚ × Doc) :=
  if d.product_id = p then
    match cur with
    | none => some (f d, d)
    | some (s0, d0) => if s0 < f d then some (f d, d) else some (s0, d0)
  else cur

/-- The per-pid view of the whole aggregation loop. -/
def runningBest (f : Doc → ℚ) (p : PId) : List Doc → Option (ℚ × Doc) → Option (ℚ × Doc)
  | [], cur => cur
  | d :: rest, cur => runningBest f p rest (runStep f p cur d)

theorem lookupEntry_aggUpdate (l : List Entry) (d : Doc) (s : ℚ) (p : PId) :
    lookupEntry (aggUpdate l d s) p =
      if d.product_id = p then
        match lookupEntry l p with
        | none => some (s, d)
        | some (s0, d0) => if s0 < s then some (s, d) else some (s0, d0)
      else lookupEntry l p := by
  induction l with
  | nil => by_cases h : d.product_id = p <;> simp [aggUpdate, lookupEntry, h]
  | cons e rest ih =>
    unfold aggUpdate
    by_cases h1 : e.pid = d.product_id
    · rw [if_pos h1]
      by_cases hs : e.score < s
      · rw [if_pos hs]
        by_cases h2 : e.pid = p
        · have hdp : d.product_id = p := h1 ▸ h2
          simp [lookupEntry, h2, hdp, hs]
        · have hdp : ¬ d.product_id = p := fun h => h2 (h1.trans h)
          simp [lookupEntry, h2, hdp]
      · rw [if_neg hs]
        by_cases h2 : e.pid = p
        · have hdp : d.product_id = p := h1 ▸ h2
          simp [lookupEntry, h2, hdp, hs]
        · have hdp : ¬ d.product_id = p := fun h => h2 (h1.trans h)
          simp [lookupEntry, h2, hdp]
    · rw [if_neg h1]
      by_cases h2 : e.pid = p
      · have hdp : ¬ d.product_id = p := fun h => h1 (h2.trans h.symm)
        simp [lookupEntry, h2, hdp]
      · simp [lookupEntry, h2, ih]

theorem lookupEntry_foldl_agg (f : Doc → ℚ) (docs : List Doc) (acc : List Entry) (p : PId) :
    lookupEntry (docs.foldl (fun a d => aggUpdate a d (f d)) acc) p =
      runningBest f p docs (lookupEntry acc p) := by
  induction docs generalizing acc with
  | nil => rfl
  | cons d rest ih =>
    rw [List.foldl_cons, ih, lookupEntry_aggUpdate]
    rfl

theorem runStep_pos_none {f : Doc → ℚ} {p : PId} {d : Doc} (hp : d.product_id = p) :
    runStep f p none d = some (f d, d) := by simp [runStep, hp]

theorem runStep_pos_lt {f : Doc → ℚ} {p : PId} {d : Doc} {s0 : ℚ} {d0 : Doc}
    (hp : d.product_id = p) (hlt : s0 < f d) :
    runStep f p (some (s0, d0)) d = some (f d, d) := by simp [runStep, hp, hlt]

theorem runStep_pos_ge {f : Doc → ℚ} {p : PId} {d : Doc} {s0 : ℚ} {d0 : Doc}
    (hp : d.product_id = p) (hlt : ¬ s0 < f d) :
    runStep f p (some (s0, d0)) d = some (s0, d0) := by simp [runStep, hp, hlt]

theorem runStep_neg {f : Doc → ℚ} {p : PId} {d : Doc} {cur : Option (ℚ × Doc)}
    (hp : ¬ d.product_id = p) : runStep f p cur d = cur := by simp [runStep, hp]

/-- After processing `docs` from an empty or partial state, a present
aggregation pair is either the untouched starting pair (then every processed
matching doc scored no higher), or the maximum-scoring matching doc of `docs`
(dominating every processed matching doc and the starting pair). -/
theorem runningBest_spec (f : Doc → ℚ) (p : PId) :
    ∀ (docs : List Doc) (cur : Option (ℚ × Doc)) (s : ℚ) (d : Doc),
      runningBest f p docs cur = some (s, d) →
      (cur = some (s, d) ∧ ∀ d' ∈ docs, d'.product_id = p → f d' ≤ s) ∨
      (d ∈ docs ∧ d.product_id = p ∧ s = f d ∧
        (∀ d' ∈ docs, d'.product_id = p → f d' ≤ s) ∧
        ∀ s0 d0, cur = some (s0, d0) → s0 ≤ s) := by
  intro docs
  induction docs with
  | nil =>
    intro cur s d h
    left
    exact ⟨h, by intro d' hd'; cases hd'⟩
  | cons d1 rest ih =>
    intro cur s d h
    have h' : runningBest f p rest (runStep f p cur d1) = some (s, d) := h
    by_cases hp : d1.product_id = p
    · cases cur with
      | none =>
        rw [runStep_pos_none hp] at h'
        rcases ih _ s d h' with ⟨heq, hdom⟩ | ⟨hmem, hpid, hs, hdom, hcur'⟩
        · have hfst : f d1 = s := congrArg Prod.fst (Option.some.inj heq)
          have hsnd : d1 = d := congrArg Prod.snd (Option.some.inj heq)
          right
          refine ⟨hsnd ▸ List.mem_cons_self _ _, hsnd ▸ hp, by rw [← hfst, ← hsnd], ?_, ?_⟩
          · intro d' hd' hdp'
            rcases List.mem_cons.mp hd' with rfl | hd''
            · exact le_of_eq hfst
            · exact hdom d' hd'' hdp'
          · intro s1 dd1 hc
            exact absurd hc (by simp)
        · right
          refine ⟨List.mem_cons_of_mem _ hmem, hpid, hs, ?_, ?_⟩
          · intro d' hd' hdp'
            rcases List.mem_cons.mp hd' with rfl | hd''
            · exact hcur' (f d') d' rfl
            · exact hdom d' hd'' hdp'
          · intro s1 dd1 hc
            exact absurd hc (by simp)
      | some pair =>
        obtain ⟨s0, d0⟩ := pair
        by_cases hlt : s0 < f d1
        · rw [runStep_pos_lt hp hlt] at h'
          rcases ih _ s d h' with ⟨heq, hdom⟩ | ⟨hmem, hpid, hs, hdom, hcur'⟩
          · have hfst : f d1 = s := congrArg Prod.fst (Option.some.inj heq)
            have hsnd : d1 = d := congrArg Prod.snd (Option.some.inj heq)
            right
            refine ⟨hsnd ▸ List.mem_cons_self _ _, hsnd ▸ hp, by rw [← hfst, ← hsnd], ?_, ?_⟩
            · intro d' hd' hdp'
              rcases List.mem_cons.mp hd' with rfl | hd''
              · exact le_of_eq hfst
              · exact hdom d' hd'' hdp'
            · intro s1 dd1 hc
              have h1 : s0 = s1 := congrArg Prod.fst (Option.some.inj hc)
              rw [← h1, ← hfst]
              exact le_of_lt hlt
          · right
            refine ⟨List.mem_cons_of_mem _ hmem, hpid, hs, ?_, ?_⟩
            · intro d' hd' hdp'
              rcases List.mem_cons.mp hd' with rfl | hd''
              · exact hcur' (f d') d' rfl
              · exact hdom d' hd'' hdp'
            · intro s1 dd1 hc
              have h1 : s0 = s1 := congrArg Prod.fst (Option.some.inj hc)
              rw [← h1]
              exact le_trans (le_of_lt hlt) (hcur' (f d1) d1 rfl)
        · rw [runStep_pos_ge hp hlt] at h'
          rcases ih _ s d h' with ⟨heq, hdom⟩ | ⟨hmem, hpid, hs, hdom, hcur'⟩
          · left
            refine ⟨heq, ?_⟩
            intro d' hd' hdp'
            rcases List.mem_cons.mp hd' with rfl | hd''
            · have h1 : s0 = s := congrArg Prod.fst (Option.some.inj heq)
              exact le_trans (not_lt.mp hlt) (le_of_eq h1)
            · exact hdom d' hd'' hdp'
          · right
            refine ⟨List.mem_cons_of_mem _ hmem, hpid, hs, ?_, ?_⟩
            · intro d' hd' hdp'
              rcases List.mem_cons.mp hd' with rfl | hd''
              · exact le_trans (not_lt.mp hlt) (hcur' s0 d0 rfl)
              · exact hdom d' hd'' hdp'
            · intro s1 dd1 hc
              have h1 : s0 = s1 := congrArg Prod.fst (Option.some.inj hc)
              exact h1 ▸ hcur' s0 d0 rfl
    · rw [runStep_neg hp] at h'
      rcases ih _ s d h' with ⟨heq, hdom⟩ | ⟨hmem, hpid, hs, hdom, hcur'⟩
      · left
        refine ⟨heq, ?_⟩
        intro d' hd' hdp'
        rcases List.mem_cons.mp hd' with rfl | hd''
        · exact absurd hdp' hp
        · exact hdom d' hd'' hdp'
      · right
        refine ⟨List.mem_cons_of_mem _ hmem, hpid, hs, ?_, hcur'⟩
        intro d' hd' hdp'
        rcases List.mem_cons.mp hd' with rfl | hd''
        · exact absurd hdp' hp
        · exact hdom d' hd'' hdp'

theorem invariants_foldl_agg (f : Doc → ℚ) (docs : List Doc) (acc : List Entry)
    (hpw : List.Pairwise (fun a b => a.pid ≠ b.pid) acc)
    (hdp : ∀ e ∈ acc, e.doc.product_id = e.pid) :
    List.Pairwise (fun a b => a.pid ≠ b.pid)
        (docs.foldl (fun a d => aggUpdate a d (f d)) acc) ∧
      ∀ e ∈ docs.foldl (fun a d => aggUpdate a d (f d)) acc,
        e.doc.product_id = e.pid := by
  induction docs generalizing acc with
  | nil => exact ⟨hpw, hdp⟩
  | cons d rest ih =>
    rw [List.foldl_cons]
    exact ih _ (pairwise_aggUpdate hpw) (docpid_aggUpdate hdp)

/-- Every entry of the finished aggregation dictionaries holds a passage of
the input, carrying its own pid, scored by the model, and dominating every
other passage of the same product. -/
theorem rerank_agg_facts (ms : String → String → ℚ) (q : String) (docs : List Doc) :
    ∀ e ∈ docs.foldl (fun acc d => aggUpdate acc d (ms q d.page_content)) [],
      e.doc ∈ docs ∧ e.doc.product_id = e.pid ∧
        e.score = ms q e.doc.page_content ∧
        ∀ d' ∈ docs, d'.product_id = e.pid → ms q d'.page_content ≤ e.score := by
  intro e he
  obtain ⟨hpw, hdp⟩ :=
    invariants_foldl_agg (fun d => ms q d.page_content) docs [] (by simp) (by simp)
  have hl := lookupEntry_of_mem hpw he
  have hl' : runningBest (fun d => ms q d.page_content) e.pid docs none
      = some (e.score, e.doc) :=
    ((lookupEntry_foldl_agg (fun d => ms q d.page_content) docs [] e.pid).symm.trans hl : _)
  rcases runningBest_spec _ _ docs none e.score e.doc hl' with ⟨hc, _⟩ | ⟨hmem, hpid, hs, hdom, _⟩
  · exact absurd hc (by simp)
  · exact ⟨hmem, hpid, hs, hdom⟩

/-- The non-empty branch of `rerank_chunk_level`, unfolded. -/
theorem rerank_chunk_level_ne_empty (ms : String → String → ℚ) (q : String)
    (docs : List Doc) (topk : ℕ) (hd : docs.isEmpty = false) :
    rerank_chunk_level ms q docs topk =
      ((sortDesc (docs.foldl (fun acc d => aggUpdate acc d (ms q d.page_content)) [])).take
          topk).map Entry.doc := by
  unfold rerank_chunk_level
  rw [hd]
  rfl

/-- C4: on a non-empty candidate list `rerank_chunk_level` keeps, per
`product_id`, only a maximum-scoring passage (so of two passages of one
product with scores `s1 < s2`, only the `s2` one can survive), returns at most
`topk` products in descending score order with no product repeated, and each
returned passage dominates every candidate passage of its product; an empty
candidate list yields `[]` for **every** model oracle, i.e. with no model
invocation. -/
theorem rerank_top_max_per_product (ms : String → String → ℚ) (q : String)
    (docs : List Doc) (topk : ℕ) :
    (∀ ms' : String → String → ℚ, rerank_chunk_level ms' q [] topk = []) ∧
    (rerank_chunk_level ms q docs topk).length ≤ topk ∧
    (∀ d ∈ rerank_chunk_level ms q docs topk,
      d ∈ docs ∧ ∀ d' ∈ docs, d'.product_id = d.product_id →
        ms q d'.page_content ≤ ms q d.page_content) ∧
    List.Pairwise (fun d1 d2 => ms q d2.page_content ≤ ms q d1.page_content)
      (rerank_chunk_level ms q docs topk) ∧
    List.Pairwise (fun d1 d2 : Doc => d1.product_id ≠ d2.product_id)
      (rerank_chunk_level ms q docs topk) := by
  cases hd : docs.isEmpty
  case true =>
    have hnil : docs = [] := List.isEmpty_iff.mp hd
    subst hnil
    refine ⟨fun ms' => rfl, ?_, ?_, ?_, ?_⟩
    · show (List.length []) ≤ topk
      exact Nat.zero_le _
    · intro d hdm
      cases hdm
    · exact List.Pairwise.nil
    · exact List.Pairwise.nil
  case false =>
    rw [rerank_chunk_level_ne_empty ms q docs topk hd]
    set agg := docs.foldl (fun acc d => aggUpdate acc d (ms q d.page_content)) [] with hagg
    have hfacts := rerank_agg_facts ms q docs
    have hperm := perm_sortDesc agg
    have hmem_take : ∀ e ∈ (sortDesc agg).take topk, e ∈ agg := fun e he =>
      hperm.mem_iff.mp ((List.take_sublist topk _).subset he)
    refine ⟨fun ms' => rfl, ?_, ?_, ?_, ?_⟩
    · rw [List.length_map, List.length_take]
      exact min_le_left _ _
    · intro d hdm
      obtain ⟨e, he, rfl⟩ := List.mem_map.mp hdm
      obtain ⟨hin, hpid, hscore, hdom⟩ := hfacts e (hmem_take e he)
      refine ⟨hin, ?_⟩
      intro d' hd' hdp'
      have := hdom d' hd' (hdp'.trans hpid)
      rw [hscore] at this
      exact this
    · apply List.pairwise_map.mpr
      have hsorted : List.Pairwise (fun a b : Entry => b.score ≤ a.score)
          ((sortDesc agg).take topk) :=
        (sorted_sortDesc agg).sublist (List.take_sublist topk _)
      refine List.Pairwise.imp_of_mem ?_ hsorted
      intro a b ha hb hle
      obtain ⟨_, _, hsa, _⟩ := hfacts a (hmem_take a ha)
      obtain ⟨_, _, hsb, _⟩ := hfacts b (hmem_take b hb)
      rw [hsa, hsb] at hle
      exact hle
    · apply List.pairwise_map.mpr
      obtain ⟨hpw, hdp⟩ :=
        invariants_foldl_agg (fun d => ms q d.page_content) docs [] (by simp) (by simp)
      have hpw2 : List.Pairwise (fun a b : Entry => a.pid ≠ b.pid) (sortDesc agg) :=
        (List.Perm.pairwise_iff (fun hab => Ne.symm hab) hperm).mpr hpw
      have hpw3 := hpw2.sublist (List.take_sublist topk _)
      refine List.Pairwise.imp_of_mem ?_ hpw3
      intro a b ha hb hne
      obtain ⟨_, hpa, _, _⟩ := hfacts a (hmem_take a ha)
      obtain ⟨_, hpb, _, _⟩ := hfacts b (hmem_take b hb)
      rw [hpa, hpb]
      exact hne

/-- Witness for C4 at a concrete input: two passages of product `"p"` with
scores `1 < 2` — only the higher-scoring passage survives and it heads the
result; the empty list returns `[]` under every oracle. -/
theorem rerank_top_max_per_product_witness :
    (rerank_chunk_level (fun _ c => if c = "hi" then 2 else 1) "q" [] 3 = []) ∧
    ((⟨"hi", some "p"⟩ : Doc) ∈ ([⟨"lo", some "p"⟩, ⟨"hi", some "p"⟩] : List Doc) ∧
      ∀ d' ∈ ([⟨"lo", some "p"⟩, ⟨"hi", some "p"⟩] : List Doc),
        d'.product_id = (⟨"hi", some "p"⟩ : Doc).product_id →
          (fun _ c => if c = "hi" then (2:ℚ) else 1) "q" d'.page_content ≤
            (fun _ c => if c = "hi" then (2:ℚ) else 1) "q"
              (⟨"hi", some "p"⟩ : Doc).page_content) ∧
    rerank_chunk_level (fun _ c => if c = "hi" then 2 else 1) "q"
        [⟨"lo", some "p"⟩, ⟨"hi", some "p"⟩] 3 = [⟨"hi", some "p"⟩] :=
  ⟨(rerank_top_max_per_product (fun _ c => if c = "hi" then 2 else 1) "q"
      [⟨"lo", some "p"⟩, ⟨"hi", some "p"⟩] 3).1 _,
   (rerank_top_max_per_product (fun _ c => if c = "hi" then 2 else 1) "q"
      [⟨"lo", some "p"⟩, ⟨"hi", some "p"⟩] 3).2.2.1 _ (by decide),
   by decide⟩

/-! ## Router theorems -/

theorem classifyLoop_all_fail (jsonOf : String → Option RouterDict) (llm : ℕ → String)
    (u : String) :
    ∀ (fuel start : ℕ),
      (∀ a, start ≤ a → a < start + fuel → parseAndValidate jsonOf (llm a) = none) →
      classifyLoop jsonOf llm u fuel start = fallbackDecision u := by
  intro fuel
  induction fuel with
  | zero => intro start _; rfl
  | succ n ih =>
    intro start h
    unfold classifyLoop
    rw [h start (le_refl _) (by omega)]
    exact ih (start + 1) (fun a h1 h2 => h a (by omega) (by omega))

/-- C1: when the rule-based fast path does not match and every one of the
`1 + max_retries` model attempts fails extraction, parsing or validation,
`Router.classify` returns the retrieval fallback whose `infor` field is the
trimmed original utterance.  (`classify` is a total function of its oracles,
so it always returns a decision and never raises.) -/
theorem classify_all_attempts_fail_fallback (matcher : String → Bool)
    (jsonOf : String → Option RouterDict) (llm : ℕ → String) (max_retries : ℕ)
    (u : String) (hfast : matcher u = false)
    (hfail : ∀ a, 1 ≤ a → a ≤ max_retries + 1 → parseAndValidate jsonOf (llm a) = none) :
    classify matcher jsonOf llm max_retries u = fallbackDecision u ∧
      fallbackDecision u =
        [("router", PyVal.str "retrieval"), ("infor", PyVal.str (pyStrip u))] := by
  refine ⟨?_, rfl⟩
  unfold classify ruleBasedFastpath
  rw [hfast]
  exact classifyLoop_all_fail jsonOf llm u (max_retries + 1) 1
    (fun a h1 h2 => hfail a h1 (by omega))

/-- Witness for C1 at a concrete input: no fast-path match, the LLM answers
with blank output on every attempt, and the fallback carries the trimmed
utterance. -/
theorem classify_all_attempts_fail_fallback_witness :
    classify (fun _ => false) (fun _ => none) (fun _ => "  ") 2 "  mua iphone 16  "
        = fallbackDecision "  mua iphone 16  " ∧
      fallbackDecision "  mua iphone 16  " =
        [("router", PyVal.str "retrieval"), ("infor", PyVal.str "mua iphone 16")] := by
  have hone : parseAndValidate (fun _ => none) "  " = none := by decide
  have h := classify_all_attempts_fail_fallback (fun _ => false) (fun _ => none)
    (fun _ => "  ") 2 "  mua iphone 16  " rfl (fun a _ _ => hone)
  exact ⟨h.1, by decide⟩

/-- The parsed object the C6 failing input produces: the model answered a
well-formed chat decision. -/
def chatModelAnswer : RouterDict :=
  [("router", PyVal.str "chat"), ("infor", PyVal.str "tôi cần tư vấn điện thoại")]

/-- C6 failing input: the fast path does not match, the model returns a valid
`chat` JSON object — and the decision `classify` hands back stores `None` in
the `router` field (the `ChatOutput` validator is missing `return v`), so the
decision's router tag is not `"chat"`, `"retrieval"` or `"comparison"`. -/
theorem classify_chat_decision_loses_router_tag :
    (classify (fun _ => false) (fun _ => some chatModelAnswer)
        (fun _ => "a chat answer") 2 "tôi cần tư vấn điện thoại"
      = [("router", PyVal.null), ("infor", PyVal.str "tôi cần tư vấn điện thoại")]) ∧
    (∀ s : String, PyVal.null ≠ PyVal.str s) :=
  ⟨by decide, fun _ h => PyVal.noConfusion h⟩

/-- C8 counterexample: a products list containing an entry that is empty
after trimming still validates as a Comparison decision — blank entries are
dropped, not rejected — so "validates only when all entries are non-empty
after trimming" fails on the code. -/
theorem comparison_accepts_blank_entry :
    validateSchemas [("router", PyVal.str "comparison"),
        ("products", PyVal.strList ["x", "   ", "y"])]
      = some [("router", PyVal.str "comparison"), ("products", PyVal.strList ["x", "y"])] ∧
    pyStrip "   " = "" := by
  decide

/-- `ComparisonOutput` validation of a well-shaped comparison object, reduced
to its two length checks. -/
theorem comparisonOutputParse_literal (ps : List String) :
    comparisonOutputParse
        [("router", PyVal.str "comparison"), ("products", PyVal.strList ps)] =
      if ps.isEmpty ∨ ps.length < 2 then none
      else
        if ((ps.filter (fun p => p ≠ "" ∧ pyStrip p ≠ "")).map pyStrip).length < 2 then none
        else some [("router", PyVal.str "comparison"),
          ("products", PyVal.strList
            ((ps.filter (fun p => p ≠ "" ∧ pyStrip p ≠ "")).map pyStrip))] := by
  rfl

/-- C8 amended: an object with router tag `"comparison"` validates iff its
products list has at least 2 entries of which at least 2 are non-blank after
trimming; blank entries are dropped and the decision's products are the
trimmed non-blank entries.  In particular
`{"router": "comparison", "products": ["x"]}` fails validation and falls
through every schema. -/
theorem comparison_validation_amended :
    (∀ (ps : List String) (d : RouterDict),
      comparisonOutputParse
          [("router", PyVal.str "comparison"), ("products", PyVal.strList ps)] = some d →
        2 ≤ ps.length ∧
          2 ≤ (ps.filter (fun p => p ≠ "" ∧ pyStrip p ≠ "")).length ∧
          d = [("router", PyVal.str "comparison"),
               ("products", PyVal.strList
                 ((ps.filter (fun p => p ≠ "" ∧ pyStrip p ≠ "")).map pyStrip))]) ∧
    validateSchemas
        [("router", PyVal.str "comparison"), ("products", PyVal.strList ["x"])] = none := by
  constructor
  · intro ps d h
    rw [comparisonOutputParse_literal] at h
    by_cases h1 : ps.isEmpty ∨ ps.length < 2
    · rw [if_pos h1] at h
      cases h
    · rw [if_neg h1] at h
      by_cases h2 : ((ps.filter (fun p => p ≠ "" ∧ pyStrip p ≠ "")).map pyStrip).length < 2
      · rw [if_pos h2] at h
        cases h
      · rw [if_neg h2] at h
        push_neg at h1 h2
        rw [List.length_map] at h2
        exact ⟨h1.2, h2, (Option.some.inj h).symm⟩
  · decide

/-- Witness for the amended C8 at a concrete input. -/
theorem comparison_validation_amended_witness :
    2 ≤ (["iphone 15", "galaxy s24"] : List String).length ∧
      2 ≤ ((["iphone 15", "galaxy s24"] : List String).filter
            (fun p => p ≠ "" ∧ pyStrip p ≠ "")).length ∧
      [("router", PyVal.str "comparison"),
          ("products", PyVal.strList ["iphone 15", "galaxy s24"])]
        = [("router", PyVal.str "comparison"),
           ("products", PyVal.strList
             (((["iphone 15", "galaxy s24"] : List String).filter
                 (fun p => p ≠ "" ∧ pyStrip p ≠ "")).map pyStrip))] :=
  comparison_validation_amended.1 ["iphone 15", "galaxy s24"]
    [("router", PyVal.str "comparison"),
     ("products", PyVal.strList ["iphone 15", "galaxy s24"])] (by decide)

/-! ## Memory compaction lemmas -/

theorem applyUpdates_append (msgs : List Message) (u1 u2 : List MsgUpdate) :
    applyUpdates msgs (u1 ++ u2) = applyUpdates (applyUpdates msgs u1) u2 :=
  List.foldl_append _ _ _ _

theorem addMessage_fresh {l : List Message} {m : Message}
    (h : ∀ x ∈ l, x.id ≠ m.id) : addMessage l m = l ++ [m] := by
  have hany : l.any (fun x => x.id = m.id) = false := by
    rw [List.any_eq_false]
    intro x hx
    simpa using h x hx
  unfold addMessage
  rw [hany]
  simp

theorem applyUpdates_removes (old : List Message) : ∀ l : List Message,
    applyUpdates l (old.map (fun m => MsgUpdate.remove m.id)) =
      l.filter (fun x => old.all (fun m => x.id ≠ m.id)) := by
  induction old with
  | nil => intro l; simp [applyUpdates]
  | cons m rest ih =>
    intro l
    rw [List.map_cons]
    show applyUpdates (removeMessage l m.id) (rest.map _) = _
    rw [ih]
    unfold removeMessage
    rw [List.filter_filter]
    apply List.filter_congr
    intro x _
    simp [List.all_cons, Bool.and_comm]

/-- C5: on a thread whose stored history (excluding the in-flight user
message) has length ≥ 10 with `summary_threshold = 10`, the compaction branch
of `call_model` runs, and after the langgraph reducer applies the returned
updates, the stored history is exactly `[summary, new user message, response]`
— three entries — and a `RemoveMessage` was issued for every previously
stored message.  Freshness hypotheses: langchain assigns the summary, the
rebuilt human message and the response fresh ids distinct from every stored
id and from one another. -/
theorem call_model_compaction (invoke : List Message → Message) (hid : ℕ)
    (stored : List Message) (user : Message)
    (hlen : 10 ≤ stored.length)
    (hs : ∀ m ∈ stored ++ [user], (summarizeMessages invoke stored).id ≠ m.id)
    (hh : ∀ m ∈ stored ++ [user], hid ≠ m.id)
    (hr : ∀ m ∈ stored ++ [user],
      (invoke [systemMessage, summarizeMessages invoke stored, ⟨hid, user.content⟩]).id ≠ m.id)
    (hsh : (summarizeMessages invoke stored).id ≠ hid)
    (hsr : (summarizeMessages invoke stored).id ≠
      (invoke [systemMessage, summarizeMessages invoke stored, ⟨hid, user.content⟩]).id)
    (hhr : hid ≠
      (invoke [systemMessage, summarizeMessages invoke stored, ⟨hid, user.content⟩]).id) :
    applyUpdates (stored ++ [user]) (call_model invoke hid 10 (stored ++ [user]))
        = [summarizeMessages invoke stored, ⟨hid, user.content⟩,
           invoke [systemMessage, summarizeMessages invoke stored, ⟨hid, user.content⟩]] ∧
      (applyUpdates (stored ++ [user]) (call_model invoke hid 10 (stored ++ [user]))).length
        = 3 ∧
      ∀ m ∈ stored ++ [user],
        MsgUpdate.remove m.id ∈ call_model invoke hid 10 (stored ++ [user]) := by
  set S := summarizeMessages invoke stored with hS
  set H : Message := ⟨hid, user.content⟩ with hH
  set R := invoke [systemMessage, S, H] with hR
  have hcall : call_model invoke hid 10 (stored ++ [user]) =
      [MsgUpdate.add S, MsgUpdate.add H, MsgUpdate.add R]
        ++ (stored ++ [user]).map (fun m => MsgUpdate.remove m.id) := by
    simp only [call_model, List.dropLast_concat]
    rw [if_pos hlen]
    simp [hS, hH, hR]
  have hadds : applyUpdates (stored ++ [user])
      [MsgUpdate.add S, MsgUpdate.add H, MsgUpdate.add R]
      = (stored ++ [user]) ++ [S, H, R] := by
    show addMessage (addMessage (addMessage (stored ++ [user]) S) H) R = _
    rw [addMessage_fresh (fun x hx => (hs x hx).symm)]
    rw [addMessage_fresh (l := (stored ++ [user]) ++ [S]) ?hH2]
    rw [addMessage_fresh (l := ((stored ++ [user]) ++ [S]) ++ [H]) ?hR2]
    · simp
    case hH2 =>
      intro x hx
      rcases List.mem_append.mp hx with hx1 | hx2
      · exact fun hc => hh x hx1 hc.symm
      · rw [List.mem_singleton.mp hx2]
        exact hsh
    case hR2 =>
      intro x hx
      rcases List.mem_append.mp hx with hx1 | hx2
      · rcases List.mem_append.mp hx1 with hx3 | hx4
        · exact fun hc => hr x hx3 hc.symm
        · rw [List.mem_singleton.mp hx4]
          exact hsr
      · rw [List.mem_singleton.mp hx2]
        exact hhr
  have hfirst : applyUpdates (stored ++ [user]) (call_model invoke hid 10 (stored ++ [user]))
      = [S, H, R] := by
    rw [hcall, applyUpdates_append, hadds, applyUpdates_removes]
    rw [List.filter_append]
    have hold : (stored ++ [user]).filter
        (fun x => (stored ++ [user]).all (fun m => x.id ≠ m.id)) = [] := by
      rw [List.filter_eq_nil_iff]
      intro x hx hc
      have := List.all_eq_true.mp hc x hx
      simp at this
    have hP : ∀ y : Message, (∀ m ∈ stored ++ [user], y.id ≠ m.id) →
        ((stored ++ [user]).all (fun m => y.id ≠ m.id) : Bool) = true := by
      intro y hy
      rw [List.all_eq_true]
      intro m hm
      simpa using hy m hm
    have hPS := hP S hs
    have hPH := hP H (by intro m hm; exact hh m hm)
    have hPR := hP R hr
    rw [hold]
    simp only [List.filter_cons, hPS, hPH, hPR]
    simp
  refine ⟨hfirst, by rw [hfirst]; rfl, ?_⟩
  intro m hm
  rw [hcall]
  apply List.mem_append_right
  exact List.mem_map.mpr ⟨m, hm, rfl⟩

/-- Concrete model oracle for the C5 witness: replies get an id derived from
the argument count, so the summary (11 messages) and the response (3
messages) get distinct fresh ids. -/
def wInvoke : List Message → Message := fun l => ⟨50 + l.length, "reply"⟩

/-- Ten stored messages with ids 1..10. -/
def wStored : List Message := (List.range 10).map (fun i => ⟨i + 1, "m"⟩)

/-- The in-flight user message, id 11. -/
def wUser : Message := ⟨11, "hỏi giá iphone"⟩

/-- Witness for C5 at a concrete input: ten stored messages trigger
compaction; the reduced history is exactly summary, new user message and
response, and every old message got a remove op. -/
theorem call_model_compaction_witness :
    applyUpdates (wStored ++ [wUser]) (call_model wInvoke 20 10 (wStored ++ [wUser]))
        = [summarizeMessages wInvoke wStored, ⟨20, wUser.content⟩,
           wInvoke [systemMessage, summarizeMessages wInvoke wStored, ⟨20, wUser.content⟩]] ∧
      (applyUpdates (wStored ++ [wUser])
          (call_model wInvoke 20 10 (wStored ++ [wUser]))).length = 3 ∧
      ∀ m ∈ wStored ++ [wUser],
        MsgUpdate.remove m.id ∈ call_model wInvoke 20 10 (wStored ++ [wUser]) :=
  call_model_compaction wInvoke 20 wStored wUser (by decide) (by decide) (by decide)
    (by decide) (by decide) (by decide) (by decide)
